import Mathlib

/-!
Verification of the LDTC measurement / guardrail / attestation core.

Shallow embedding, in Lean 4, of the parts of the `ldtc` Python package that
the checked claims refer to:

* `src/ldtc/attest/indicators.py` — `quantize_M`, `build_and_sign` payload;
* `src/ldtc/guardrails/lreg.py` — the `LREG` enclave and `derive`;
* `src/ldtc/guardrails/audit.py` — the hash-chained `AuditLog.append`;
* `src/ldtc/guardrails/dt_guard.py` — `DeltaTGuard.change_dt`;
* `src/ldtc/lmeas/estimators.py` / `diagnostics.py` — CI widening and
  `var_nt_ratio`;
* `src/ldtc/lmeas/partition.py` — `PartitionManager`;
* `src/ldtc/runtime/windows.py` — `SlidingWindow`.

Python floats are modelled as `ℚ`, Python ints as `ℤ`/`ℕ`, dicts either as
association lists (when key sets matter) or as records (when the key set is
fixed), and raising code as `Option`-returning functions paired with the
post-raise state (Python mutations performed before a `raise` survive it, and
the embedding reproduces that).  SHA-256 and JSON canonicalization are kept as
explicit function parameters `H` / `canon`: every theorem about the audit
chain holds for all choices of those parameters, which is strictly stronger
than fixing the concrete hash.
-/

namespace Ldtc

/-! ## `attest/indicators.py` — quantization and payload construction -/

/-- Python 3 `round` (banker's rounding, half to even) on a rational. -/
def pyRound (q : ℚ) : ℤ :=
  let f : ℤ := ⌊q⌋
  let r : ℚ := q - f
  if r < 1/2 then f
  else if 1/2 < r then f + 1
  else if f % 2 = 0 then f else f + 1

/-- Model of `quantize_M` from `attest/indicators.py`:
`int(max(0.0, min(63.0, round(M_db / 0.25))))`. -/
def quantize_M (M_db : ℚ) : ℤ :=
  max 0 (min 63 (pyRound (M_db / (0.25 : ℚ))))

/-- Modelled from the spec's words (for the refinement claim C6):
`clip(round(M_db/0.25), 0, 63)` where `clip(v, lo, hi) = min(hi, max(lo, v))`. -/
def quantize_M_specSide (M_db : ℚ) : ℤ :=
  min 63 (max 0 (pyRound (M_db / (0.25 : ℚ))))

/-- Derived-indicator input of `build_and_sign` (`derived.get(key, default)`),
each field optional exactly because the Python code reads the dict with
defaults. -/
structure DerivedIn where
  nc1 : Option Bool
  M_db : Option ℚ
  counter : Option ℤ
  invalidated : Option Bool
deriving DecidableEq, Repr

/-- Values that occur in an indicator payload. -/
inductive PVal where
  | b (x : Bool)
  | i (x : ℤ)
  | s (x : String)
deriving DecidableEq, Repr

/-- The payload dict literal of `build_and_sign` in `attest/indicators.py`,
as the ordered key/value list that Python's insertion-ordered dict holds. -/
def build_payload (derived : DerivedIn) (profile_id : ℤ) (last_sc1_pass : Bool)
    (audit_last_hash : String) : List (String × PVal) :=
  [ ("nc1", .b (derived.nc1.getD false))
  , ("sc1", .b last_sc1_pass)
  , ("mq", .i (quantize_M (derived.M_db.getD 0)))
  , ("counter", .i (derived.counter.getD 0))
  , ("profile_id", .i profile_id)
  , ("audit_prev_hash", .s audit_last_hash)
  , ("invalidated", .b (derived.invalidated.getD false)) ]

/-! ## `guardrails/lreg.py` — the LREG enclave -/

/-- Raw LREG entry (`LEntry` dataclass). -/
structure LEntry where
  L_loop : ℚ
  L_ex : ℚ
  ci_loop : ℚ × ℚ
  ci_ex : ℚ × ℚ
  M_db : ℚ
  nc1_pass : Bool
deriving DecidableEq, Repr

/-- LREG state: the dict `{idx : LEntry}` with keys `0..n-1` is the list of
entries in write order; plus the invalidation flag and reason. -/
structure LState where
  entries : List LEntry
  invalidated : Bool
  reason : Option String
deriving DecidableEq, Repr

/-- Model of `LREG.__init__`. -/
def LState.init : LState := ⟨[], false, none⟩

/-- Model of `LREG.write(entry)` (the returned index is `entries.length` before the
write). -/
def lreg_write (s : LState) (e : LEntry) : LState :=
  { s with entries := s.entries ++ [e] }

/-- Model of `LREG.invalidate(reason)`. -/
def lreg_invalidate (s : LState) (r : String) : LState :=
  { s with invalidated := true, reason := some r }

/-- Model of `LREG.latest()`: entry at `max(keys)`, i.e. the last written one. -/
def lreg_latest (s : LState) : Option LEntry :=
  s.entries.getLast?

/-- Output record of `LREG.derive()`. -/
structure Derived where
  nc1 : Bool
  M_db : ℚ
  counter : ℕ
  invalidated : Bool
deriving DecidableEq, Repr

/-- Model of `LREG.derive()`. -/
def lreg_derive (s : LState) : Derived :=
  match lreg_latest s with
  | none => ⟨false, 0, 0, s.invalidated⟩
  | some ent => ⟨ent.nc1_pass && !s.invalidated, ent.M_db, s.entries.length, s.invalidated⟩

/-- The two mutating LREG operations an adjacent component can perform. -/
inductive LOp where
  | write (e : LEntry)
  | invalidate (r : String)
deriving DecidableEq, Repr

/-- Apply one LREG operation. -/
def lreg_step (s : LState) : LOp → LState
  | .write e => lreg_write s e
  | .invalidate r => lreg_invalidate s r

/-- Apply a sequence of LREG operations. -/
def lreg_run (s : LState) (ops : List LOp) : LState :=
  ops.foldl lreg_step s

lemma lreg_step_invalidated (s : LState) (op : LOp) (h : s.invalidated = true) :
    (lreg_step s op).invalidated = true := by
  cases op <;> simp [lreg_step, lreg_write, lreg_invalidate, h]

lemma lreg_run_invalidated (s : LState) (ops : List LOp) (h : s.invalidated = true) :
    (lreg_run s ops).invalidated = true := by
  induction ops generalizing s with
  | nil => simpa [lreg_run]
  | cons op ops ih =>
      simpa [lreg_run] using ih (lreg_step s op) (lreg_step_invalidated s op h)

end Ldtc

namespace Ldtc

/-! ## `guardrails/audit.py` — the hash-chained append-only audit log

`details` values are kept generic (`α`); SHA-256 and the sorted-key JSON
canonicalization are explicit parameters `H : String → String` and
`canon : ℕ → ℚ → String → List (String × α) → String → String`
(arguments: counter, ts, event, details, prev_hash). -/

/-- The banned raw-LREG detail keys of `AuditLog.append`. -/
def bannedKeys : List String := ["L_loop", "L_ex", "ci_loop", "ci_ex"]

/-- An audit record (`AuditRecord` dataclass). -/
structure ARecord (α : Type) where
  counter : ℕ
  ts : ℚ
  event : String
  details : List (String × α)
  prev_hash : String
  hash : String
deriving DecidableEq, Repr

/-- In-memory audit state (`_counter`, `_prev_hash`) together with the JSONL
file contents (list of appended records). -/
structure AState (α : Type) where
  counter : ℕ
  prev_hash : String
  file : List (ARecord α)
deriving DecidableEq, Repr

/-- Model of `AuditLog.__init__`: counter 0, `prev_hash = "GENESIS"`, empty file. -/
def AState.init {α : Type} : AState α := ⟨0, "GENESIS", []⟩

/-- Model of `AuditLog.append(event, details)` at clock reading `ts`.

The Python method increments `self._counter` *before* the banned-key check,
so a raising call keeps the incremented counter; `none` in the second
component models the raised `ValueError` (no record written, `prev_hash`
and file untouched). -/
def audit_append {α : Type} (H : String → String)
    (canon : ℕ → ℚ → String → List (String × α) → String → String)
    (s : AState α) (ts : ℚ) (event : String) (details : List (String × α)) :
    AState α × Option (ARecord α) :=
  let c := s.counter + 1
  if details.any fun kv => bannedKeys.contains kv.1 then
    ({ s with counter := c }, none)
  else
    let raw := canon c ts event details s.prev_hash
    let h := H raw
    let r : ARecord α := ⟨c, ts, event, details, s.prev_hash, h⟩
    (⟨c, h, s.file ++ [r]⟩, some r)

/-- One `append` call: clock reading, event name, details. -/
structure ACall (α : Type) where
  ts : ℚ
  event : String
  details : List (String × α)
deriving DecidableEq, Repr

/-- Run a sequence of `append` calls, keeping only the state (raised calls
continue — the caller catches the `ValueError` — exactly as the claim's
"including calls that raise" requires). -/
def audit_run {α : Type} (H : String → String)
    (canon : ℕ → ℚ → String → List (String × α) → String → String)
    (s : AState α) (calls : List (ACall α)) : AState α :=
  calls.foldl (fun st c => (audit_append H canon st c.ts c.event c.details).1) s

/-- Trivial canonicalization instance used to evaluate counter-only facts. -/
def canon0 : ℕ → ℚ → String → List (String × Unit) → String → String :=
  fun _ _ _ _ _ => ""

/-- The three-call sequence of the C1 failing input: a clean append, an
append with a banned `L_loop` detail key (raises), and another clean append. -/
def c1calls : List (ACall Unit) :=
  [⟨0, "a", []⟩, ⟨0, "b", [("L_loop", ())]⟩, ⟨0, "c", []⟩]

/-! ## `guardrails/dt_guard.py` — Δt governance

The scheduler argument of `change_dt` is modelled inline: it holds the
current `dt` and `set_dt(new_dt)` returns the old value; the guard's audit
appends are recorded as structured events. -/

/-- Model of `DtGuardConfig`. -/
structure DtGuardConfig where
  max_changes_per_hour : ℕ
  min_seconds_between_changes : ℚ
deriving DecidableEq, Repr

/-- Audit events appended by `DeltaTGuard.change_dt`, with the detail fields
the code passes. -/
inductive DtEvent where
  | run_invalidated (reason : String) (changes_this_hour : ℕ) (min_gap_s : ℚ)
      (reason_human : String)
  | dt_changed (old_dt new_dt : ℚ) (policy_digest : Option String)
deriving DecidableEq, Repr

/-- Model of `DeltaTGuard` state plus the scheduler it mutates and the audit events it
appended. -/
structure DtState where
  last_change_ts : Option ℚ
  window_start_ts : ℚ
  changes_in_window : ℕ
  invalidated : Bool
  sched_dt : ℚ
  set_dt_calls : List (ℚ × ℚ)
  audit_events : List DtEvent
deriving DecidableEq, Repr

/-- Model of `DeltaTGuard.__init__` at construction time `t0` over a scheduler whose
current period is `dt0`. -/
def DtState.init (t0 dt0 : ℚ) : DtState :=
  ⟨none, t0, 0, false, dt0, [], []⟩

/-- Model of `DeltaTGuard._reset_window_if_needed(now)`. -/
def dt_reset_window_if_needed (s : DtState) (now : ℚ) : DtState :=
  if 3600 ≤ now - s.window_start_ts then
    { s with window_start_ts := now, changes_in_window := 0 }
  else s

/-- Model of `DeltaTGuard.can_change(now)` (its own `_reset_window_if_needed` call is
idempotent after the one in `change_dt`, so only the read-out matters). -/
def dt_can_change (cfg : DtGuardConfig) (s : DtState) (now : ℚ) : Bool :=
  if cfg.max_changes_per_hour ≤ s.changes_in_window then false
  else
    match s.last_change_ts with
    | none => true
    | some t => !(now - t < cfg.min_seconds_between_changes)

/-- Model of `DeltaTGuard.change_dt(scheduler, new_dt, policy_digest)` at clock
reading `now`; returns the new state and the boolean result. -/
def change_dt (cfg : DtGuardConfig) (s : DtState) (now new_dt : ℚ)
    (policy_digest : Option String) : DtState × Bool :=
  let s := dt_reset_window_if_needed s now
  if dt_can_change cfg s now then
    let prev := s.sched_dt
    let s := { s with
      sched_dt := new_dt
      set_dt_calls := s.set_dt_calls ++ [(prev, new_dt)]
      audit_events := s.audit_events ++ [.dt_changed prev new_dt policy_digest]
      last_change_ts := some now
      changes_in_window := s.changes_in_window + 1 }
    (s, true)
  else
    ({ s with
        audit_events := s.audit_events ++
          [.run_invalidated "dt_change_rate_limit" s.changes_in_window
            cfg.min_seconds_between_changes
            "Δt edit rate exceeded (limit 3/hour and min spacing enforced)"]
        invalidated := true }, false)

/-- Run a sequence of `change_dt` calls (clock reading, new Δt), collecting
the boolean results. -/
def change_dt_run (cfg : DtGuardConfig) (s : DtState) (calls : List (ℚ × ℚ)) :
    DtState × List Bool :=
  calls.foldl (fun acc c =>
    let r := change_dt cfg acc.1 c.1 c.2 none
    (r.1, acc.2 ++ [r.2])) (s, [])

/-- The C4 failing input: default config (3 changes/hour, 1 s gap), guard
constructed at t = 0, six `change_dt` calls clustered around the fixed
window boundary at t = 3600. -/
def c4calls : List (ℚ × ℚ) :=
  [(3597, 2), (3598, 2), (3599, 2), (3601, 2), (3602, 2), (3603, 2)]

/-! ## `lmeas/diagnostics.py` and `lmeas/estimators.py` — N/T ratio and CI
widening

Only the post-processing of `estimate_L` that the claim is about is
embedded: the raw bootstrap CIs enter as parameters and the function decides
whether to widen them.  `var_nt_ratio` returns `float("inf")` for
non-positive `N` or `p`; `none` models that infinity. -/

/-- Estimation method selector of `estimate_L`. -/
inductive Method where
  | linear
  | mi
  | mi_kraskov
  | transfer_entropy
  | directed_information
deriving DecidableEq, Repr

/-- Model of `var_nt_ratio(T, N, p)` from `lmeas/diagnostics.py`:
`inf` (here `none`) if `N <= 0 or p <= 0`, else `max(0, T - p) / (N * p)`. -/
def var_nt_ratio (T N p : ℤ) : Option ℚ :=
  if N ≤ 0 ∨ p ≤ 0 then none
  else some (max 0 ((T : ℚ) - p) / ((N : ℚ) * p))

/-- The `marginal` flag computed in `estimate_L`: for the linear method,
`var_nt_ratio(T, N, p) < 1.5`; `False` for every other method
(`float("inf") < 1.5` is false). -/
def estimate_marginal (m : Method) (T N p : ℤ) : Bool :=
  match m with
  | .linear =>
      match var_nt_ratio T N p with
      | none => false
      | some r => decide (r < 3/2)
  | _ => false

/-- The CI inflation applied by `estimate_L` when `marginal` holds:
`w = abs(hi - lo)`; new CI `(lo - w, hi + w)`. -/
def inflate_ci (ci : ℚ × ℚ) : ℚ × ℚ :=
  let w := |ci.2 - ci.1|
  (ci.1 - w, ci.2 + w)

/-- The CI post-processing of `estimate_L`: widen both bootstrap CIs exactly
when the marginal flag is set. -/
def estimate_L_cis (m : Method) (T N p : ℤ) (ci_loop ci_ex : ℚ × ℚ) :
    (ℚ × ℚ) × (ℚ × ℚ) :=
  if estimate_marginal m T N p then (inflate_ci ci_loop, inflate_ci ci_ex)
  else (ci_loop, ci_ex)

/-! ## `runtime/windows.py` — the sliding window -/

/-- Model of `SlidingWindow` state: per-channel buffers stored in `channel_order`
position (the Python dict is keyed by the channel names of `order`, assumed
pairwise distinct as channel names are). -/
structure SWState where
  capacity : ℕ
  order : List String
  buffers : List (List ℚ)
deriving DecidableEq, Repr

/-- Model of `SlidingWindow.__init__(capacity, channel_order)`: one empty
`deque(maxlen=capacity)` per channel. -/
def SWState.init (capacity : ℕ) (order : List String) : SWState :=
  ⟨capacity, order, order.map fun _ => []⟩

/-- Appending to a `deque(maxlen=cap)`: keep the last `cap` elements. -/
def dequePush (cap : ℕ) (buf : List ℚ) (v : ℚ) : List ℚ :=
  let b := buf ++ [v]
  b.drop (b.length - cap)

/-- Model of `sample.get(k, 0.0)` for an association-list sample. -/
def sampleGet (sample : List (String × ℚ)) (k : String) : ℚ :=
  (sample.lookup k).getD 0

/-- Model of `SlidingWindow.append(sample)`: for every channel of `order`, push
`sample.get(k, 0.0)` into that channel's buffer. -/
def swAppend (s : SWState) (sample : List (String × ℚ)) : SWState :=
  let newBuffers :=
    List.zipWith (fun k b => dequePush s.capacity b (sampleGet sample k))
      s.order s.buffers
  { s with buffers := newBuffers }

/-- Model of `SlidingWindow.ready()`: every channel buffer holds `capacity` samples. -/
def swReady (s : SWState) : Bool :=
  s.buffers.all fun b => b.length = s.capacity

/-- Model of `SlidingWindow.get_matrix()`: `none` models the `RuntimeError` raised
when not ready; otherwise the `(capacity, N)` matrix, given as its list of
columns (`np.column_stack` makes column `j` the buffer of `order[j]`). -/
def swGetMatrix (s : SWState) : Option (List (List ℚ)) :=
  if swReady s then some s.buffers else none

/-- Feed a list of samples through `append`. -/
def swRun (s : SWState) (samples : List (List (String × ℚ))) : SWState :=
  samples.foldl swAppend s

/-! ## `lmeas/partition.py` — the partition manager -/

/-- Model of `list(sorted(set(x)))`: deduplicate, then sort ascending. -/
def normC (l : List ℕ) : List ℕ :=
  List.insertionSort (· ≤ ·) l.dedup

/-- Model of `[i for i in range(N) if i not in C]`. -/
def complementOf (N : ℕ) (C : List ℕ) : List ℕ :=
  (List.range N).filter fun i => decide (i ∉ C)

/-- Model of `PartitionManager` state: the `Partition` dataclass fields plus the
manager's hysteresis and provenance attributes. -/
structure PMState where
  N : ℕ
  C : List ℕ
  Ex : List ℕ
  frozen : Bool
  flips : ℕ
  pending_C : Option (List ℕ)
  pending_streak : ℕ
  last_M_db : Option ℚ
  last_flip_info : Option (ℕ × ℚ × List ℕ)
deriving DecidableEq, Repr

/-- Model of `PartitionManager.__init__(N_signals, seed_C)`. -/
def PMState.mk0 (N : ℕ) (seedC : List ℕ) : PMState :=
  let C := normC seedC
  ⟨N, C, complementOf N C, false, 0, none, 0, none, none⟩

/-- Model of `PartitionManager.freeze(on)`. -/
def pm_freeze (s : PMState) (b : Bool) : PMState := { s with frozen := b }

/-- Model of `PartitionManager.update_current_M(M_db)`. -/
def pm_update_current_M (s : PMState) (M : ℚ) : PMState :=
  { s with last_M_db := some M }

/-- Model of `PartitionManager.maybe_regrow(suggested_C, delta_M_db, delta_M_min_db,
consecutive_required)`. -/
def maybe_regrow (s : PMState) (suggested_C : List ℕ)
    (delta_M_db delta_M_min_db : ℚ) (consecutive_required : ℕ) : PMState :=
  if s.frozen then s
  else
    let newC := normC suggested_C
    if newC = s.C then
      { s with pending_C := none, pending_streak := 0 }
    else
      let s1 :=
        if delta_M_min_db ≤ delta_M_db ∧
            (s.pending_C = some newC ∨ s.pending_C = none) then
          { s with pending_C := some newC, pending_streak := s.pending_streak + 1 }
        else
          { s with pending_C := some newC,
                   pending_streak := if delta_M_min_db ≤ delta_M_db then 1 else 0 }
      if consecutive_required ≤ s1.pending_streak then
        { s1 with
          last_flip_info := some (s1.pending_streak, delta_M_db, newC)
          C := newC
          Ex := complementOf s.N newC
          flips := s1.flips + 1
          pending_C := none
          pending_streak := 0 }
      else s1

/-- The externally visible mutating operations of `PartitionManager`
(`get()` is pure and omitted). -/
inductive POp where
  | freeze (b : Bool)
  | update_current_M (M : ℚ)
  | maybe_regrow (sugg : List ℕ) (dM dMin : ℚ) (req : ℕ)
deriving DecidableEq, Repr

/-- Apply one `PartitionManager` operation. -/
def pm_step (s : PMState) : POp → PMState
  | .freeze b => pm_freeze s b
  | .update_current_M M => pm_update_current_M s M
  | .maybe_regrow sugg dM dMin req => maybe_regrow s sugg dM dMin req

/-- Apply a sequence of `PartitionManager` operations. -/
def pm_run (s : PMState) (ops : List POp) : PMState :=
  ops.foldl pm_step s

lemma mem_normC {a : ℕ} {l : List ℕ} : a ∈ normC l ↔ a ∈ l := by
  unfold normC
  rw [(List.perm_insertionSort _ _).mem_iff, List.mem_dedup]

lemma sorted_normC (l : List ℕ) : (normC l).Sorted (· < ·) := by
  have hs : (normC l).Sorted (· ≤ ·) := List.sorted_insertionSort _ _
  have hnd : (normC l).Nodup :=
    (List.perm_insertionSort _ _).nodup_iff.mpr l.nodup_dedup
  exact (hs.and hnd).imp fun h => lt_of_le_of_ne h.1 h.2

lemma mem_complementOf {x N : ℕ} {C : List ℕ} :
    x ∈ complementOf N C ↔ x < N ∧ x ∉ C := by
  unfold complementOf
  simp [List.mem_filter, List.mem_range]

lemma sorted_complementOf (N : ℕ) (C : List ℕ) :
    (complementOf N C).Sorted (· < ·) := by
  unfold complementOf
  exact List.Pairwise.filter _ (List.pairwise_lt_range N)

/-- Well-formedness of a partition state: `C` in range and sorted, `Ex` the
sorted complement. -/
def PMWf (s : PMState) : Prop :=
  (∀ x ∈ s.C, x < s.N) ∧ s.C.Sorted (· < ·) ∧ s.Ex = complementOf s.N s.C

lemma maybe_regrow_wf (s : PMState) (sugg : List ℕ) (dM dMin : ℚ) (req : ℕ)
    (h : PMWf s) (hs : ∀ x ∈ sugg, x < s.N) :
    PMWf (maybe_regrow s sugg dM dMin req) := by
  obtain ⟨hb, hsort, hex⟩ := h
  unfold maybe_regrow
  dsimp only
  split_ifs <;>
    first
      | exact ⟨hb, hsort, hex⟩
      | exact ⟨fun x hx => hs x (mem_normC.mp hx), sorted_normC sugg, rfl⟩

lemma pm_step_wf (s : PMState) (op : POp) (h : PMWf s)
    (hop : ∀ sugg dM dMin req, op = POp.maybe_regrow sugg dM dMin req →
      ∀ x ∈ sugg, x < s.N) : PMWf (pm_step s op) := by
  cases op with
  | freeze b => exact h
  | update_current_M M => exact h
  | maybe_regrow sugg dM dMin req =>
      exact maybe_regrow_wf s sugg dM dMin req h (hop sugg dM dMin req rfl)

lemma maybe_regrow_N (s : PMState) (sugg : List ℕ) (dM dMin : ℚ) (req : ℕ) :
    (maybe_regrow s sugg dM dMin req).N = s.N := by
  unfold maybe_regrow
  dsimp only
  split_ifs <;> rfl

lemma pm_step_N (s : PMState) (op : POp) : (pm_step s op).N = s.N := by
  cases op with
  | freeze b => rfl
  | update_current_M M => rfl
  | maybe_regrow sugg dM dMin req => exact maybe_regrow_N s sugg dM dMin req

lemma pm_run_N (s : PMState) (ops : List POp) : (pm_run s ops).N = s.N := by
  induction ops generalizing s with
  | nil => rfl
  | cons op ops ih => rw [pm_run, List.foldl_cons, ← pm_run, ih, pm_step_N]

lemma pm_run_wf (s : PMState) (ops : List POp) (h : PMWf s)
    (hops : ∀ op ∈ ops, ∀ sugg dM dMin req, op = POp.maybe_regrow sugg dM dMin req →
      ∀ x ∈ sugg, x < s.N) : PMWf (pm_run s ops) := by
  induction ops generalizing s with
  | nil => exact h
  | cons op ops ih =>
      rw [pm_run, List.foldl_cons, ← pm_run]
      refine ih (pm_step s op)
        (pm_step_wf s op h fun sugg dM dMin req heq =>
          hops op (by simp) sugg dM dMin req heq) ?_
      intro op' hop' sugg dM dMin req heq
      rw [pm_step_N]
      exact hops op' (by simp [hop']) sugg dM dMin req heq

lemma mk0_wf (N : ℕ) (seedC : List ℕ) (hseed : ∀ x ∈ seedC, x < N) :
    PMWf (PMState.mk0 N seedC) :=
  ⟨fun x hx => hseed x (mem_normC.mp hx), sorted_normC seedC, rfl⟩

/-! ### Traces of `maybe_regrow` calls with fixed hysteresis parameters
(claim C7): a call is a pair `(suggested_C, delta_M_db)`. -/

/-- Fold a list of `maybe_regrow` calls with fixed `delta_M_min_db` and
`consecutive_required`. -/
def pm_runCalls (s : PMState) (dMin : ℚ) (req : ℕ)
    (calls : List (List ℕ × ℚ)) : PMState :=
  calls.foldl (fun st c => maybe_regrow st c.1 c.2 dMin req) s

/-- State after the first `j` calls on a freshly constructed manager. -/
def pmTrace (N : ℕ) (seedC : List ℕ) (dMin : ℚ) (req : ℕ)
    (calls : List (List ℕ × ℚ)) (j : ℕ) : PMState :=
  pm_runCalls (PMState.mk0 N seedC) dMin req (calls.take j)

lemma pmTrace_succ (N : ℕ) (seedC : List ℕ) (dMin : ℚ) (req : ℕ)
    (calls : List (List ℕ × ℚ)) (j : ℕ) (hj : j < calls.length) :
    pmTrace N seedC dMin req calls (j + 1) =
      maybe_regrow (pmTrace N seedC dMin req calls j)
        (calls.getD j ([], 0)).1 (calls.getD j ([], 0)).2 dMin req := by
  unfold pmTrace pm_runCalls
  rw [List.take_succ]
  rw [List.getElem?_eq_getElem hj]
  rw [List.foldl_append]
  rw [List.getD_eq_getElem calls ([], 0) hj]
  rfl

lemma maybe_regrow_frozen (s : PMState) (g : List ℕ) (dM dMin : ℚ) (req : ℕ) :
    (maybe_regrow s g dM dMin req).frozen = s.frozen := by
  unfold maybe_regrow
  dsimp only
  split_ifs <;> rfl

lemma pmTrace_frozen (N : ℕ) (seedC : List ℕ) (dMin : ℚ) (req : ℕ)
    (calls : List (List ℕ × ℚ)) (j : ℕ) :
    (pmTrace N seedC dMin req calls j).frozen = false := by
  induction j with
  | zero => rfl
  | succ j ih =>
      by_cases hj : j < calls.length
      · rw [pmTrace_succ N seedC dMin req calls j hj, maybe_regrow_frozen, ih]
      · unfold pmTrace
        rw [List.take_succ, List.getElem?_eq_none (by omega)]
        simpa [pm_runCalls] using ih

/-- Step characterization of `maybe_regrow` on an unfrozen manager with
`1 ≤ consecutive_required`: when the flip counter advances, by how much, and
what the post-state looks like. -/
lemma maybe_regrow_spec (s : PMState) (g : List ℕ) (dM dMin : ℚ) (req : ℕ)
    (hfr : s.frozen = false) (hreq : 1 ≤ req) :
    ((maybe_regrow s g dM dMin req).flips = s.flips + 1 ↔
      (normC g ≠ s.C ∧ dMin ≤ dM ∧
        ((s.pending_C = some (normC g) ∨ s.pending_C = none) ∧
            req ≤ s.pending_streak + 1 ∨
         ¬(s.pending_C = some (normC g) ∨ s.pending_C = none) ∧ req ≤ 1))) ∧
    ((maybe_regrow s g dM dMin req).flips = s.flips ∨
      (maybe_regrow s g dM dMin req).flips = s.flips + 1) ∧
    ((maybe_regrow s g dM dMin req).flips = s.flips + 1 →
      (maybe_regrow s g dM dMin req).C = normC g) ∧
    ((maybe_regrow s g dM dMin req).flips = s.flips →
      (maybe_regrow s g dM dMin req).C = s.C) ∧
    (maybe_regrow s g dM dMin req).pending_streak < req ∧
    (normC g ≠ s.C → dMin ≤ dM → (maybe_regrow s g dM dMin req).flips = s.flips →
      (maybe_regrow s g dM dMin req).pending_C = some (normC g) ∧
      1 ≤ (maybe_regrow s g dM dMin req).pending_streak ∧
      (s.pending_C = some (normC g) →
        (maybe_regrow s g dM dMin req).pending_streak = s.pending_streak + 1)) := by
  unfold maybe_regrow
  dsimp only
  rw [if_neg (by rw [hfr]; simp)]
  split_ifs with h1 h2 h3 h4 h5 h6 <;>
    refine ⟨?_, ?_, ?_, ?_, ?_, ?_⟩ <;>
    simp_all <;> omega

/-- Branch-level post-state case analysis of `maybe_regrow` on an unfrozen
manager: either the pending streak has been reset to zero, or the call was a
fresh/continuing good suggestion different from the current `C`. -/
lemma maybe_regrow_post_cases (s : PMState) (g : List ℕ) (dM dMin : ℚ) (req : ℕ)
    (hfr : s.frozen = false) :
    (maybe_regrow s g dM dMin req).pending_streak = 0 ∨
    (normC g ≠ s.C ∧ dMin ≤ dM ∧
      (maybe_regrow s g dM dMin req).pending_C = some (normC g) ∧
      (maybe_regrow s g dM dMin req).C = s.C ∧
      ((maybe_regrow s g dM dMin req).pending_streak = 1 ∨
        ((s.pending_C = some (normC g) ∨ s.pending_C = none) ∧
          (maybe_regrow s g dM dMin req).pending_streak = s.pending_streak + 1))) := by
  unfold maybe_regrow
  dsimp only
  rw [if_neg (by rw [hfr]; simp)]
  split_ifs with h1 h2 h3 h4 h5 h6 <;> simp_all

/-- History invariant along a trace of `maybe_regrow` calls: whenever the
pending streak is positive, the pending suggestion differs from the current
`C` and the last `pending_streak` calls all carried exactly that (normalized)
suggestion with sufficient gain, while `C` stayed unchanged. -/
def pendingInv (N : ℕ) (seedC : List ℕ) (dMin : ℚ) (req : ℕ)
    (calls : List (List ℕ × ℚ)) (j : ℕ) : Prop :=
  (pmTrace N seedC dMin req calls j).pending_streak = 0 ∨
  ∃ X, (pmTrace N seedC dMin req calls j).pending_C = some X ∧
    X ≠ (pmTrace N seedC dMin req calls j).C ∧
    (pmTrace N seedC dMin req calls j).pending_streak ≤ j ∧
    ∀ k, j - (pmTrace N seedC dMin req calls j).pending_streak ≤ k → k < j →
      normC (calls.getD k ([], 0)).1 = X ∧
      dMin ≤ (calls.getD k ([], 0)).2 ∧
      (pmTrace N seedC dMin req calls k).C = (pmTrace N seedC dMin req calls j).C

lemma pendingInv_holds (N : ℕ) (seedC : List ℕ) (dMin : ℚ) (req : ℕ)
    (calls : List (List ℕ × ℚ)) :
    ∀ j, j ≤ calls.length → pendingInv N seedC dMin req calls j := by
  intro j
  induction j with
  | zero => intro _; exact Or.inl rfl
  | succ j ih =>
      intro hj1
      have hj : j < calls.length := by omega
      have ihj := ih (by omega)
      have hfr := pmTrace_frozen N seedC dMin req calls j
      have hsucc := pmTrace_succ N seedC dMin req calls j hj
      rcases maybe_regrow_post_cases (pmTrace N seedC dMin req calls j)
          (calls.getD j ([], 0)).1 (calls.getD j ([], 0)).2 dMin req hfr with
        hz | ⟨hne, hgood, hpend, hC, hstreak⟩
      · exact Or.inl (by rw [hsucc]; exact hz)
      · refine Or.inr ⟨normC (calls.getD j ([], 0)).1, by rw [hsucc]; exact hpend,
          by rw [hsucc, hC]; exact hne, ?_, ?_⟩
        · rw [hsucc]
          rcases hstreak with h1 | ⟨_, hsk⟩
          · omega
          · rw [hsk]
            rcases ihj with hz | ⟨X, _, _, hle, _⟩
            · omega
            · omega
        · intro k hk1 hk2
          rw [hsucc]
          rcases hstreak with h1 | ⟨hok, hsk⟩
          · -- streak reset to 1: the window is just the call `j` itself
            rw [hsucc, h1] at hk1
            have hkj : k = j := by omega
            subst hkj
            exact ⟨rfl, hgood, hC.symm⟩
          · -- streak continued: compose with the induction hypothesis
            rw [hsucc, hsk] at hk1
            by_cases hkj : k = j
            · subst hkj
              exact ⟨rfl, hgood, hC.symm⟩
            · have hklt : k < j := by omega
              rcases ihj with hz | ⟨X, hpendj, hneX, hleX, hwin⟩
              · -- zero pre-streak: the window cannot reach below `j`
                rw [hz] at hk1
                omega
              · have hXeq : X = normC (calls.getD j ([], 0)).1 := by
                  rcases hok with hsome | hnone
                  · rw [hpendj] at hsome
                    exact Option.some.inj hsome
                  · rw [hpendj] at hnone
                    exact absurd hnone (Option.some_ne_none X)
                have := hwin k (by omega) hklt
                rw [hXeq] at this
                exact ⟨this.1, this.2.1, by rw [this.2.2, hC]⟩

lemma pmTrace_stable (N : ℕ) (seedC : List ℕ) (dMin : ℚ) (req : ℕ)
    (calls : List (List ℕ × ℚ)) (j : ℕ) (hj : calls.length ≤ j) :
    pmTrace N seedC dMin req calls (j + 1) = pmTrace N seedC dMin req calls j := by
  unfold pmTrace
  rw [List.take_succ, List.getElem?_eq_none (by omega)]
  simp [pm_runCalls]

lemma pmTrace_streak_lt (N : ℕ) (seedC : List ℕ) (dMin : ℚ) (req : ℕ)
    (calls : List (List ℕ × ℚ)) (hreq : 1 ≤ req) (j : ℕ) :
    (pmTrace N seedC dMin req calls j).pending_streak < req := by
  induction j with
  | zero =>
      have h0 : (pmTrace N seedC dMin req calls 0).pending_streak = 0 := rfl
      omega
  | succ j ih =>
      by_cases hj : j < calls.length
      · rw [pmTrace_succ N seedC dMin req calls j hj]
        exact (maybe_regrow_spec (pmTrace N seedC dMin req calls j)
          (calls.getD j ([], 0)).1 (calls.getD j ([], 0)).2 dMin req
          (pmTrace_frozen N seedC dMin req calls j) hreq).2.2.2.2.1
      · rw [pmTrace_stable N seedC dMin req calls j (by omega)]
        exact ih

/-- The last `n` elements of a list. -/
def lastN {α : Type} (n : ℕ) (l : List α) : List α :=
  l.drop (l.length - n)

lemma length_lastN {α : Type} (n : ℕ) (l : List α) :
    (lastN n l).length = min n l.length := by
  simp only [lastN, List.length_drop]
  omega

lemma dequePush_lastN (cap : ℕ) (vs : List ℚ) (v : ℚ) :
    dequePush cap (lastN cap vs) v = lastN cap (vs ++ [v]) := by
  unfold dequePush lastN
  rw [List.drop_append_eq_append_drop, List.drop_append_eq_append_drop,
    List.drop_drop]
  simp only [List.length_append, List.length_drop, List.length_cons,
    List.length_nil]
  congr 2 <;> omega

lemma swAppend_capacity (s : SWState) (x : List (String × ℚ)) :
    (swAppend s x).capacity = s.capacity := rfl

lemma swAppend_order (s : SWState) (x : List (String × ℚ)) :
    (swAppend s x).order = s.order := rfl

/-- Closed form for the window state after feeding `ss` samples from a fresh
window: each channel buffer holds the last `capacity` values of its sample
stream, in arrival order. -/
lemma swRun_closed_form (cap : ℕ) (order : List String)
    (ss : List (List (String × ℚ))) :
    swRun (SWState.init cap order) ss =
      ⟨cap, order, order.map fun k => lastN cap (ss.map fun smp => sampleGet smp k)⟩ := by
  induction ss using List.reverseRecOn with
  | nil => simp [swRun, SWState.init, lastN]
  | append_singleton ss x ih =>
      unfold swRun at ih ⊢
      rw [List.foldl_append]
      simp only [List.foldl_cons, List.foldl_nil, ih]
      unfold swAppend
      simp only [SWState.mk.injEq, true_and]
      rw [List.zipWith_map_right, List.zipWith_same]
      refine List.map_congr_left fun k _ => ?_
      rw [dequePush_lastN]
      simp

end Ldtc

/-! ## Claim theorems (first batch) -/

open Ldtc

/-- Claim C6. For every `M_db : ℚ`, `quantize_M M_db` equals the spec-side
`clip(round(M_db/0.25), 0, 63)` and is an integer in `[0, 63]`; moreover the
`mq` field of every payload built by `build_and_sign` is exactly this
quantization of the derived `M_db`. -/
theorem quantize_M_matches_spec_clip (M_db : ℚ) :
    quantize_M M_db = quantize_M_specSide M_db ∧
    0 ≤ quantize_M M_db ∧ quantize_M M_db ≤ 63 ∧
    ∀ (d : DerivedIn) (pid : ℤ) (sc1 : Bool) (h : String),
      (build_payload d pid sc1 h).lookup "mq" =
        some (.i (quantize_M (d.M_db.getD 0))) := by
  refine ⟨?_, ?_, ?_, ?_⟩
  · unfold quantize_M quantize_M_specSide
    rcases le_total (pyRound (M_db / (0.25 : ℚ))) 0 with h0 | h0 <;>
      rcases le_total (pyRound (M_db / (0.25 : ℚ))) 63 with h63 | h63 <;>
      omega
  · unfold quantize_M; omega
  · unfold quantize_M
    have : min 63 (pyRound (M_db / (0.25 : ℚ))) ≤ 63 := min_le_left _ _
    omega
  · intro d pid sc1 h
    rfl

/-- Claim C3. Once `LREG.invalidate(reason)` has been called, every later
`derive()` — after any further sequence of `write`/`invalidate` operations —
returns `nc1 = false` and `invalidated = true`. -/
theorem lreg_derive_after_invalidate (s : LState) (r : String) (ops : List LOp) :
    (lreg_derive (lreg_run (lreg_invalidate s r) ops)).nc1 = false ∧
    (lreg_derive (lreg_run (lreg_invalidate s r) ops)).invalidated = true := by
  have hinv : (lreg_run (lreg_invalidate s r) ops).invalidated = true :=
    lreg_run_invalidated _ ops (by simp [lreg_invalidate])
  constructor
  · unfold lreg_derive
    cases hl : lreg_latest (lreg_run (lreg_invalidate s r) ops) with
    | none => simp
    | some ent => simp [hinv]
  · unfold lreg_derive
    cases hl : lreg_latest (lreg_run (lreg_invalidate s r) ops) with
    | none => simpa
    | some ent => simpa

/-- Claim C5 counterexample. The claim says the `invalidated` key is present
only when LREG reports the run invalidated.  In the code the payload literal
always contains it: a payload built from a non-invalidated `derived` dict
still carries the `invalidated` key, so its key list is not the claimed
six-key list. -/
theorem build_payload_invalidated_key_always_present :
    (DerivedIn.mk (some true) (some 5) (some 3) (some false)).invalidated.getD false = false ∧
    "invalidated" ∈ (build_payload ⟨some true, some 5, some 3, some false⟩ 0 false "h").map Prod.fst ∧
    (build_payload ⟨some true, some 5, some 3, some false⟩ 0 false "h").map Prod.fst ≠
      ["nc1", "sc1", "mq", "counter", "profile_id", "audit_prev_hash"] := by
  refine ⟨rfl, by decide, by decide⟩

/-- Claim C5 amended. Every payload built by `build_and_sign` has, in
insertion order, exactly the keys
`[nc1, sc1, mq, counter, profile_id, audit_prev_hash, invalidated]`;
`invalidated` is always present and its value is the derived invalidated flag
(`false` when the run is not invalidated). -/
theorem build_payload_keys (d : DerivedIn) (pid : ℤ) (sc1 : Bool) (h : String) :
    (build_payload d pid sc1 h).map Prod.fst =
      ["nc1", "sc1", "mq", "counter", "profile_id", "audit_prev_hash", "invalidated"] ∧
    (build_payload d pid sc1 h).lookup "invalidated" =
      some (.b (d.invalidated.getD false)) := by
  exact ⟨rfl, rfl⟩

/-- Claim C1 code bug. Evaluating `AuditLog.append` at the failing input —
a clean append, then an append whose details carry the banned key `L_loop`
(which raises), then another clean append — produces a file whose two records
have counters `[1, 3]`: the raising call consumed counter 2 because
`self._counter += 1` precedes the banned-key check, so the chain invariant
`r_{i+1}.counter == r_i.counter + 1` fails on the resulting file. -/
theorem audit_counter_gap_after_raise :
    ((audit_run id canon0 AState.init c1calls).file.map fun r => r.counter) = [1, 3] ∧
    ¬ List.Chain' (fun a b => b = a + 1)
        ((audit_run id canon0 AState.init c1calls).file.map fun r => r.counter) := by
  constructor
  · rfl
  · intro h
    rw [show ((audit_run id canon0 AState.init c1calls).file.map fun r => r.counter)
          = [1, 3] from rfl] at h
    simp [List.chain'_cons] at h

/-- Claim C2 code bug. A failing `append` (banned key `L_loop` in the fresh
log) raises and writes no record and leaves `prev_hash` at `"GENESIS"`, but
it does *not* leave the state unchanged: the in-memory counter advances from
0 to 1, so the claimed atomicity fails. -/
theorem audit_failed_append_increments_counter :
    (audit_append id canon0 AState.init 0 "x" [("L_loop", ())]).2 = none ∧
    (audit_append id canon0 AState.init 0 "x" [("L_loop", ())]).1.file = [] ∧
    (audit_append id canon0 AState.init 0 "x" [("L_loop", ())]).1.prev_hash = "GENESIS" ∧
    (AState.init : AState Unit).counter = 0 ∧
    (audit_append id canon0 AState.init 0 "x" [("L_loop", ())]).1.counter = 1 := by
  refine ⟨rfl, rfl, rfl, rfl, rfl⟩

/-- Claim C4 code bug. With the default config (3 changes/hour, 1 s minimum
gap) and the guard constructed at t = 0, the six `change_dt` calls at
t = 3597, 3598, 3599, 3601, 3602, 3603 are *all* accepted (each one calls
`set_dt` and appends a `dt_changed` record): the code counts changes in a
fixed window that resets at t = 3600, so a rolling one-hour interval — here
one of width 6 seconds — receives 6 > 3 accepted changes, contradicting the
claimed rolling-hour bound. -/
theorem change_dt_rolling_hour_violated :
    (change_dt_run ⟨3, 1⟩ (DtState.init 0 1) c4calls).2 =
      [true, true, true, true, true, true] ∧
    (change_dt_run ⟨3, 1⟩ (DtState.init 0 1) c4calls).1.set_dt_calls.length = 6 ∧
    ((3603 : ℚ) - 3597 < 3600) ∧ 3 < 6 ∧
    ((change_dt_run ⟨3, 1⟩ (DtState.init 0 1) c4calls).1.audit_events.countP
        (fun e => match e with | .dt_changed _ _ _ => true | _ => false)) = 6 := by
  refine ⟨?_, ?_, by norm_num, by norm_num, ?_⟩ <;>
    norm_num [change_dt_run, change_dt, dt_reset_window_if_needed, dt_can_change,
      DtState.init, c4calls, List.countP, List.countP.go]

/-- Claim C9. In `estimate_L` with the linear method the CI widening is
applied exactly when `T − p < 1.5·N·p` and never for other methods; a
widened CI is `(lo − w, hi + w)` for raw width `w`, so its width is `3w` —
in particular at least double the raw bootstrap CI's width. -/
theorem estimate_L_ci_widening (T N p : ℤ) (hN : 1 ≤ N) (hp : 1 ≤ p)
    (cil cie : ℚ × ℚ) (hl : cil.1 ≤ cil.2) (he : cie.1 ≤ cie.2) :
    (estimate_marginal .linear T N p = true ↔ ((T : ℚ) - p < 3/2 * (N * p))) ∧
    (∀ m : Method, m ≠ .linear → estimate_marginal m T N p = false) ∧
    (estimate_L_cis .linear T N p cil cie =
      if (T : ℚ) - p < 3/2 * (N * p) then (inflate_ci cil, inflate_ci cie)
      else (cil, cie)) ∧
    ((inflate_ci cil).2 - (inflate_ci cil).1 = 3 * (cil.2 - cil.1)) ∧
    (2 * (cil.2 - cil.1) ≤ (inflate_ci cil).2 - (inflate_ci cil).1) ∧
    ((inflate_ci cie).2 - (inflate_ci cie).1 = 3 * (cie.2 - cie.1)) ∧
    (2 * (cie.2 - cie.1) ≤ (inflate_ci cie).2 - (inflate_ci cie).1) := by
  have hNp : (0 : ℚ) < (N : ℚ) * p := by
    have h1 : (0 : ℚ) < (N : ℚ) := by exact_mod_cast hN
    have h2 : (0 : ℚ) < (p : ℚ) := by exact_mod_cast hp
    positivity
  have hmarg : estimate_marginal .linear T N p = true ↔
      ((T : ℚ) - p < 3/2 * (N * p)) := by
    unfold estimate_marginal var_nt_ratio
    rw [if_neg (by omega)]
    simp only [decide_eq_true_eq]
    rw [div_lt_iff₀ hNp, max_lt_iff]
    constructor
    · exact fun h => h.2
    · exact fun h => ⟨by positivity, h⟩
  have habs : |cil.2 - cil.1| = cil.2 - cil.1 := abs_of_nonneg (by linarith)
  have habs' : |cie.2 - cie.1| = cie.2 - cie.1 := abs_of_nonneg (by linarith)
  refine ⟨hmarg, ?_, ?_, ?_, ?_, ?_, ?_⟩
  · intro m hm
    cases m <;> simp_all [estimate_marginal]
  · unfold estimate_L_cis
    by_cases h : (T : ℚ) - p < 3/2 * (N * p)
    · rw [if_pos h, if_pos (hmarg.mpr h)]
    · rw [if_neg h, if_neg (by simp [hmarg, h])]
  · simp only [inflate_ci, habs]; ring
  · simp only [inflate_ci, habs]; nlinarith
  · simp only [inflate_ci, habs']; ring
  · simp only [inflate_ci, habs']; nlinarith

/-- Claim C9 witness. Hypotheses discharged at `T = 2, N = 1, p = 1` with
raw CIs `(0, 1)` and `(0, 2)`; that case is marginal (`1 < 1.5`). -/
theorem estimate_L_ci_widening_witness :
    ((1 : ℤ) ≤ 1 ∧ ((0 : ℚ), (1 : ℚ)).1 ≤ ((0 : ℚ), (1 : ℚ)).2) ∧
    (estimate_marginal .linear 2 1 1 = true ↔
      ((2 : ℤ) : ℚ) - ((1 : ℤ) : ℚ) < 3/2 * (((1 : ℤ) : ℚ) * ((1 : ℤ) : ℚ))) :=
  ⟨⟨le_refl 1, by norm_num⟩,
    (estimate_L_ci_widening 2 1 1 (le_refl 1) (le_refl 1) (0, 1) (0, 2)
      (by norm_num) (by norm_num)).1⟩

/-- Claim C10. From a fresh `SlidingWindow` (distinct channel names), after any
sample sequence `ss`: once `capacity` samples have arrived the window is
ready and stays ready after every further append; `get_matrix` raises
(returns `none`) exactly when some channel buffer holds fewer than
`capacity` samples, and otherwise yields the matrix whose column `j` is the
last `capacity` values of channel `order[j]`'s stream in arrival order, with
missing sample keys read as `0.0`. -/
theorem sliding_window_ready_matrix (cap : ℕ) (order : List String)
    (_hnd : order.Nodup) (ss : List (List (String × ℚ))) :
    (cap ≤ ss.length → swReady (swRun (SWState.init cap order) ss) = true) ∧
    (swReady (swRun (SWState.init cap order) ss) = true →
      ∀ x, swReady (swAppend (swRun (SWState.init cap order) ss) x) = true) ∧
    (swGetMatrix (swRun (SWState.init cap order) ss) = none ↔
      ∃ b ∈ (swRun (SWState.init cap order) ss).buffers, b.length < cap) ∧
    (swReady (swRun (SWState.init cap order) ss) = true →
      swGetMatrix (swRun (SWState.init cap order) ss) =
        some (order.map fun k => lastN cap (ss.map fun smp => sampleGet smp k))) := by
  have hcf := swRun_closed_form cap order ss
  have hlen : ∀ k : String, (lastN cap (ss.map fun smp => sampleGet smp k)).length =
      min cap ss.length := by
    intro k; rw [length_lastN, List.length_map]
  refine ⟨?_, ?_, ?_, ?_⟩
  · intro hle
    rw [hcf]
    simp only [swReady, List.all_eq_true, decide_eq_true_eq]
    intro b hb
    obtain ⟨k, _, rfl⟩ := List.mem_map.mp hb
    rw [hlen k]
    omega
  · intro hready x
    rw [hcf] at hready ⊢
    simp only [swReady, List.all_eq_true, decide_eq_true_eq] at hready
    simp only [swAppend, swReady, List.all_eq_true, decide_eq_true_eq]
    intro b hb
    rw [List.zipWith_map_right, List.zipWith_same] at hb
    obtain ⟨k, hk, rfl⟩ := List.mem_map.mp hb
    have hkl := hready _ (List.mem_map_of_mem
      (fun k => lastN cap (ss.map fun smp => sampleGet smp k)) hk)
    unfold dequePush
    simp only [List.length_drop, List.length_append, List.length_cons,
      List.length_nil, hkl]
    omega
  · rw [hcf]
    unfold swGetMatrix
    by_cases h : swReady ⟨cap, order,
        order.map fun k => lastN cap (ss.map fun smp => sampleGet smp k)⟩
    · rw [if_pos h]
      simp only [swReady, List.all_eq_true, decide_eq_true_eq] at h
      constructor
      · intro hcontra; exact absurd hcontra (by simp)
      · rintro ⟨b, hb, hblt⟩
        rw [h b hb] at hblt
        omega
    · rw [if_neg h]
      simp only [swReady, List.all_eq_true, decide_eq_true_eq] at h
      push_neg at h
      obtain ⟨b, hb, hne⟩ := h
      refine ⟨fun _ => ⟨b, hb, ?_⟩, fun _ => rfl⟩
      obtain ⟨k, _, rfl⟩ := List.mem_map.mp hb
      rw [hlen k] at hne ⊢
      omega
  · intro hready
    rw [hcf] at hready ⊢
    unfold swGetMatrix
    rw [if_pos hready]

/-- Claim C10 witness. Concrete instance: capacity 2, channels `["E", "T"]`,
three samples (the third evicting the first); the matrix holds the last two
values per channel with missing keys zero-filled. -/
theorem sliding_window_ready_matrix_witness :
    (["E", "T"].Nodup ∧ 2 ≤ ([[("E", (1 : ℚ))], [("T", 2)], [("E", 3)]] :
        List (List (String × ℚ))).length) ∧
    (2 ≤ ([[("E", (1 : ℚ))], [("T", 2)], [("E", 3)]] :
        List (List (String × ℚ))).length →
      swReady (swRun (SWState.init 2 ["E", "T"])
        [[("E", (1 : ℚ))], [("T", 2)], [("E", 3)]]) = true) :=
  ⟨⟨by decide, by decide⟩,
    (sliding_window_ready_matrix 2 ["E", "T"] (by decide)
      [[("E", (1 : ℚ))], [("T", 2)], [("E", 3)]]).1⟩

/-- Claim C8 counterexample. The claim quantifies over *any* `seed_C`, but
`PartitionManager.__init__` does not validate the seed: constructing with
`N = 2, seed_C = [2]` puts the out-of-range index 2 into `C` while
`Ex = [0, 1]`, so `C ∪ Ex ≠ {0, 1}`. -/
theorem partition_union_fails_out_of_range_seed :
    2 ∈ (PMState.mk0 2 [2]).C ∧ (PMState.mk0 2 [2]).Ex = [0, 1] ∧
    ¬ (∀ x, (x ∈ (PMState.mk0 2 [2]).C ∨ x ∈ (PMState.mk0 2 [2]).Ex) ↔ x < 2) := by
  refine ⟨by decide, by decide, fun h => ?_⟩
  have := (h 2).mp (Or.inl (by decide))
  omega

/-- Claim C8 amended. When the seed and every suggested `C` are subsets of
`{0..N-1}`, the partition invariant holds at all observable times: after
construction and any sequence of `freeze` / `update_current_M` /
`maybe_regrow` calls, `C ∩ Ex = ∅`, `C ∪ Ex = {0..N-1}`, and both lists are
strictly sorted. -/
theorem partition_invariant_in_range (N : ℕ) (seedC : List ℕ) (ops : List POp)
    (hseed : ∀ x ∈ seedC, x < N)
    (hops : ∀ op ∈ ops, ∀ sugg dM dMin req,
      op = POp.maybe_regrow sugg dM dMin req → ∀ x ∈ sugg, x < N) :
    (∀ x, ¬(x ∈ (pm_run (PMState.mk0 N seedC) ops).C ∧
            x ∈ (pm_run (PMState.mk0 N seedC) ops).Ex)) ∧
    (∀ x, (x ∈ (pm_run (PMState.mk0 N seedC) ops).C ∨
           x ∈ (pm_run (PMState.mk0 N seedC) ops).Ex) ↔ x < N) ∧
    (pm_run (PMState.mk0 N seedC) ops).C.Sorted (· < ·) ∧
    (pm_run (PMState.mk0 N seedC) ops).Ex.Sorted (· < ·) := by
  have hN : (PMState.mk0 N seedC).N = N := rfl
  have hwf : PMWf (pm_run (PMState.mk0 N seedC) ops) :=
    pm_run_wf _ ops (mk0_wf N seedC hseed)
      (by intro op hop sugg dM dMin req heq; rw [hN]; exact hops op hop sugg dM dMin req heq)
  have hNr : (pm_run (PMState.mk0 N seedC) ops).N = N := by rw [pm_run_N, hN]
  obtain ⟨hb, hsort, hex⟩ := hwf
  rw [hNr] at hb
  refine ⟨?_, ?_, hsort, ?_⟩
  · rintro x ⟨hxC, hxE⟩
    rw [hex] at hxE
    exact (mem_complementOf.mp hxE).2 hxC
  · intro x
    constructor
    · rintro (hxC | hxE)
      · exact hb x hxC
      · rw [hex] at hxE
        have := (mem_complementOf.mp hxE).1
        rwa [hNr] at this
    · intro hx
      by_cases hxC : x ∈ (pm_run (PMState.mk0 N seedC) ops).C
      · exact Or.inl hxC
      · refine Or.inr ?_
        rw [hex]
        exact mem_complementOf.mpr ⟨by rwa [hNr], hxC⟩
  · rw [hex]
    exact sorted_complementOf _ _

/-- Claim C8 witness. Concrete instance: `N = 3`, seed `[2, 0]`, one
in-range regrowth suggestion `[1]`; the invariant hypotheses hold and the
theorem applies. -/
theorem partition_invariant_in_range_witness :
    ((∀ x ∈ ([2, 0] : List ℕ), x < 3) ∧
      (∀ op ∈ [POp.maybe_regrow [1] 1 (1/2) 1], ∀ sugg dM dMin req,
        op = POp.maybe_regrow sugg dM dMin req → ∀ x ∈ sugg, x < 3)) ∧
    (∀ x, (x ∈ (pm_run (PMState.mk0 3 [2, 0]) [POp.maybe_regrow [1] 1 (1/2) 1]).C ∨
           x ∈ (pm_run (PMState.mk0 3 [2, 0]) [POp.maybe_regrow [1] 1 (1/2) 1]).Ex) ↔
           x < 3) :=
  ⟨⟨by decide, by
      intro op hop sugg dM dMin req heq
      simp only [List.mem_singleton] at hop
      subst hop
      cases heq
      decide⟩,
    (partition_invariant_in_range 3 [2, 0] [POp.maybe_regrow [1] 1 (1/2) 1]
      (by decide)
      (by
        intro op hop sugg dM dMin req heq
        simp only [List.mem_singleton] at hop
        subst hop
        cases heq
        decide)).2.1⟩

/-- Claim C7. On a never-frozen manager with fixed `delta_M_min_db` and
`consecutive_required ≥ 1`, the partition is committed at call `i` (the flip
counter advances) exactly when the last `consecutive_required` calls up to
and including `i` all carry the same normalized suggestion `X`, each with
`delta_M_db ≥ delta_M_min_db`, and `X` differs from the current `C` at each
of those calls: any different suggestion or insufficient gain inside that
window resets the streak and prevents the commit. -/
theorem maybe_regrow_commit_iff_streak (N : ℕ) (seedC : List ℕ) (dMin : ℚ)
    (req : ℕ) (hreq : 1 ≤ req) (calls : List (List ℕ × ℚ)) (i : ℕ)
    (hi : i < calls.length) :
    (pmTrace N seedC dMin req calls (i + 1)).flips =
      (pmTrace N seedC dMin req calls i).flips + 1 ↔
    (req ≤ i + 1 ∧ ∃ X,
      ∀ k, i + 1 - req ≤ k → k ≤ i →
        normC (calls.getD k ([], 0)).1 = X ∧
        dMin ≤ (calls.getD k ([], 0)).2 ∧
        (pmTrace N seedC dMin req calls k).C ≠ X) := by
  have hsucc := pmTrace_succ N seedC dMin req calls i hi
  have hspec := maybe_regrow_spec (pmTrace N seedC dMin req calls i)
    (calls.getD i ([], 0)).1 (calls.getD i ([], 0)).2 dMin req
    (pmTrace_frozen N seedC dMin req calls i) hreq
  constructor
  · -- commit ⟹ completed streak window
    intro hcm
    rw [hsucc] at hcm
    obtain ⟨hne, hgood, hdisj⟩ := hspec.1.mp hcm
    have hslt := pmTrace_streak_lt N seedC dMin req calls hreq i
    rcases hdisj with ⟨hok, hreqle⟩ | ⟨_, hreq1⟩
    · -- increment branch: pre-streak was exactly `req - 1`
      rcases pendingInv_holds N seedC dMin req calls i (le_of_lt hi) with
        hz | ⟨X, hpendj, _, hle, hwin⟩
      · -- pre-streak zero forces `req = 1`: the window is the call `i` alone
        have hreq1 : req = 1 := by omega
        refine ⟨by omega, normC (calls.getD i ([], 0)).1, ?_⟩
        intro k hk1 hk2
        have hki : k = i := by omega
        subst hki
        exact ⟨rfl, hgood, Ne.symm hne⟩
      · have hXeq : X = normC (calls.getD i ([], 0)).1 := by
          rcases hok with hsome | hnone
          · rw [hpendj] at hsome
            exact Option.some.inj hsome
          · rw [hpendj] at hnone
            exact absurd hnone (Option.some_ne_none X)
        refine ⟨by omega, normC (calls.getD i ([], 0)).1, ?_⟩
        intro k hk1 hk2
        by_cases hki : k = i
        · subst hki
          exact ⟨rfl, hgood, Ne.symm hne⟩
        · have := hwin k (by omega) (by omega)
          rw [hXeq] at this
          exact ⟨this.1, this.2.1, by rw [this.2.2]; exact Ne.symm hne⟩
    · -- pending mismatch branch commits only with `req = 1`
      have hreq1 : req = 1 := by omega
      refine ⟨by omega, normC (calls.getD i ([], 0)).1, ?_⟩
      intro k hk1 hk2
      have hki : k = i := by omega
      subst hki
      exact ⟨rfl, hgood, Ne.symm hne⟩
  · -- completed streak window ⟹ commit
    rintro ⟨hreqle, X, hwin⟩
    by_contra hnc
    -- the step at `i` then leaves the flip counter unchanged
    have hnci : (pmTrace N seedC dMin req calls (i + 1)).flips =
        (pmTrace N seedC dMin req calls i).flips := by
      rcases hspec.2.1 with h | h
      · rwa [hsucc]
      · exact absurd (by rwa [hsucc]) hnc
    -- no call strictly inside the window commits either: a commit would set
    -- `C` to `X`, contradicting the window condition at the next call
    have hnomid : ∀ j, i + 1 - req ≤ j → j < i →
        (pmTrace N seedC dMin req calls (j + 1)).flips =
          (pmTrace N seedC dMin req calls j).flips := by
      intro j haj hji
      have hjlen : j < calls.length := by omega
      have hsucc_j := pmTrace_succ N seedC dMin req calls j hjlen
      have hspec_j := maybe_regrow_spec (pmTrace N seedC dMin req calls j)
        (calls.getD j ([], 0)).1 (calls.getD j ([], 0)).2 dMin req
        (pmTrace_frozen N seedC dMin req calls j) hreq
      rcases hspec_j.2.1 with h | h
      · rwa [hsucc_j]
      · exfalso
        have hCj : (pmTrace N seedC dMin req calls (j + 1)).C =
            normC (calls.getD j ([], 0)).1 := by
          rw [hsucc_j]; exact hspec_j.2.2.1 h
        have h1 := hwin j haj (by omega)
        have h2 := hwin (j + 1) (by omega) (by omega)
        exact h2.2.2 (by rw [hCj, h1.1])
    -- the streak therefore grows through the whole window …
    have L1 : ∀ m, (i + 1 - req) + m ≤ i →
        (pmTrace N seedC dMin req calls ((i + 1 - req) + m + 1)).pending_C =
          some X ∧
        m + 1 ≤ (pmTrace N seedC dMin req calls
          ((i + 1 - req) + m + 1)).pending_streak := by
      intro m
      induction m with
      | zero =>
          intro hm
          have hjlen : i + 1 - req < calls.length := by omega
          have hsucc_a := pmTrace_succ N seedC dMin req calls (i + 1 - req) hjlen
          have hspec_a := maybe_regrow_spec
            (pmTrace N seedC dMin req calls (i + 1 - req))
            (calls.getD (i + 1 - req) ([], 0)).1
            (calls.getD (i + 1 - req) ([], 0)).2 dMin req
            (pmTrace_frozen N seedC dMin req calls (i + 1 - req)) hreq
          have hw := hwin (i + 1 - req) (le_refl _) (by omega)
          have hnc_a : (pmTrace N seedC dMin req calls (i + 1 - req + 1)).flips =
              (pmTrace N seedC dMin req calls (i + 1 - req)).flips := by
            by_cases hai : i + 1 - req = i
            · rw [hai]; exact hnci
            · exact hnomid (i + 1 - req) (le_refl _) (by omega)
          have hgp := hspec_a.2.2.2.2.2 (by rw [hw.1]; exact Ne.symm hw.2.2)
            hw.2.1 (by rw [← hsucc_a]; exact hnc_a)
          rw [← hsucc_a] at hgp
          exact ⟨by rw [hgp.1, hw.1], by simpa using hgp.2.1⟩
      | succ m ihm =>
          intro hm
          have ihm' := ihm (by omega)
          have hk : i + 1 - req + m + 1 ≤ i := by omega
          set k := i + 1 - req + m + 1 with hkdef
          have hjlen : k < calls.length := by omega
          have hsucc_k := pmTrace_succ N seedC dMin req calls k hjlen
          have hspec_k := maybe_regrow_spec (pmTrace N seedC dMin req calls k)
            (calls.getD k ([], 0)).1 (calls.getD k ([], 0)).2 dMin req
            (pmTrace_frozen N seedC dMin req calls k) hreq
          have hw := hwin k (by omega) hk
          have hnc_k : (pmTrace N seedC dMin req calls (k + 1)).flips =
              (pmTrace N seedC dMin req calls k).flips := by
            by_cases hki : k = i
            · rw [hki]; exact hnci
            · exact hnomid k (by omega) (by omega)
          have hgp := hspec_k.2.2.2.2.2 (by rw [hw.1]; exact Ne.symm hw.2.2)
            hw.2.1 (by rw [← hsucc_k]; exact hnc_k)
          rw [← hsucc_k] at hgp
          have hinc := hgp.2.2 (by rw [ihm'.1, hw.1])
          have hidx : i + 1 - req + (m + 1) + 1 = k + 1 := by omega
          rw [hidx]
          have h2 := ihm'.2
          refine ⟨by rw [hgp.1, hw.1], by omega⟩
    -- … reaching `req` after call `i`, contradicting the streak bound
    have hfinal := L1 (req - 1) (by omega)
    have hstep : i + 1 - req + (req - 1) + 1 = i + 1 := by omega
    rw [hstep] at hfinal
    have := pmTrace_streak_lt N seedC dMin req calls hreq (i + 1)
    omega

/-- Claim C7 witness. Concrete instance: `N = 3`, seed `[0]`, two identical
good suggestions `[0, 1]` with gain 1 ≥ 0, `consecutive_required = 2`: the
commit fires exactly at the second call. -/
theorem maybe_regrow_commit_iff_streak_witness :
    ((1 : ℕ) ≤ 2 ∧ (1 : ℕ) < ([([0, 1], (1 : ℚ)), ([0, 1], 1)] :
        List (List ℕ × ℚ)).length) ∧
    ((pmTrace 3 [0] 0 2 [([0, 1], 1), ([0, 1], 1)] (1 + 1)).flips =
        (pmTrace 3 [0] 0 2 [([0, 1], 1), ([0, 1], 1)] 1).flips + 1 ↔
      (2 ≤ 1 + 1 ∧ ∃ X,
        ∀ k, 1 + 1 - 2 ≤ k → k ≤ 1 →
          normC (([([0, 1], (1 : ℚ)), ([0, 1], 1)] :
              List (List ℕ × ℚ)).getD k ([], 0)).1 = X ∧
          (0 : ℚ) ≤ (([([0, 1], (1 : ℚ)), ([0, 1], 1)] :
              List (List ℕ × ℚ)).getD k ([], 0)).2 ∧
          (pmTrace 3 [0] 0 2 [([0, 1], 1), ([0, 1], 1)] k).C ≠ X)) :=
  ⟨⟨by decide, by decide⟩,
    maybe_regrow_commit_iff_streak 3 [0] 0 2 (by decide)
      [([0, 1], 1), ([0, 1], 1)] 1 (by decide)⟩
